import Mathlib

set_option maxRecDepth 100000
set_option maxHeartbeats 1000000

/-!
Verification development for `issn_daily_pipeline.py`.

The file shallowly embeds the pipeline: a pure SHA-256 model (for
`hashlib.sha256`), Python string conversion and `str.join`, the two
metadata fetchers as total functions over an explicit HTTP-outcome type,
and the batch orchestrator as a recursive function over the chunked
identifier list threading an explicit database state.
-/

/- ------------------------------------------------------------------
SHA-256, byte-level model of `hashlib.sha256(...).hexdigest()`.
Bytes and 32-bit words are `Nat`s, with arithmetic reduced mod 2^32
where the algorithm wraps.
------------------------------------------------------------------ -/

/-- Modulus for 32-bit word arithmetic. -/
def w32 : Nat := 4294967296

/-- Right rotation of a 32-bit word. -/
def rotr (n x : Nat) : Nat :=
  ((x >>> n) ||| (x <<< (32 - n))) % w32

/-- SHA-256 big sigma 0. -/
def bigSigma0 (x : Nat) : Nat := (rotr 2 x) ^^^ (rotr 13 x) ^^^ (rotr 22 x)

/-- SHA-256 big sigma 1. -/
def bigSigma1 (x : Nat) : Nat := (rotr 6 x) ^^^ (rotr 11 x) ^^^ (rotr 25 x)

/-- SHA-256 small sigma 0. -/
def smallSigma0 (x : Nat) : Nat := (rotr 7 x) ^^^ (rotr 18 x) ^^^ (x >>> 3)

/-- SHA-256 small sigma 1. -/
def smallSigma1 (x : Nat) : Nat := (rotr 17 x) ^^^ (rotr 19 x) ^^^ (x >>> 10)

/-- SHA-256 choice function; complement is xor with the all-ones word. -/
def chF (x y z : Nat) : Nat := (x &&& y) ^^^ ((x ^^^ 4294967295) &&& z)

/-- SHA-256 majority function. -/
def majF (x y z : Nat) : Nat := (x &&& y) ^^^ (x &&& z) ^^^ (y &&& z)

/-- SHA-256 round constants, the 64 words of FIPS 180-4 written in decimal
(validated below against the NIST test vector for the string abc). -/
def shaK : List Nat :=
  [1116352408, 1899447441, 3049323471, 3921009573, 961987163, 1508970993,
   2453635748, 2870763221, 3624381080, 310598401, 607225278, 1426881987,
   1925078388, 2162078206, 2614888103, 3248222580, 3835390401, 4022224774,
   264347078, 604807628, 770255983, 1249150122, 1555081692, 1996064986,
   2554220882, 2821834349, 2952996808, 3210313671, 3336571891, 3584528711,
   113926993, 338241895, 666307205, 773529912, 1294757372, 1396182291,
   1695183700, 1986661051, 2177026350, 2456956037, 2730485921, 2820302411,
   3259730800, 3345764771, 3516065817, 3600352804, 4094571909, 275423344,
   430227734, 506948616, 659060556, 883997877, 958139571, 1322822218,
   1537002063, 1747873779, 1955562222, 2024104815, 2227730452, 2361852424,
   2428436474, 2756734187, 3204031479, 3329325298]

/-- SHA-256 initial hash state, as the eight working variables. -/
structure Hash8 where
  a : Nat
  b : Nat
  c : Nat
  d : Nat
  e : Nat
  f : Nat
  g : Nat
  h : Nat
deriving DecidableEq

/-- SHA-256 initial hash value, in decimal. -/
def shaInit : Hash8 :=
  ⟨1779033703, 3144134277, 1013904242, 2773480762, 1359893119, 2600822924, 528734635, 1541459225⟩

/-- Big-endian bytes of a number, fixed width `n` bytes. -/
def beBytes : Nat → Nat → List Nat
  | 0, _ => []
  | n + 1, x => beBytes n (x >>> 8) ++ [x % 256]

/-- Group a byte list into 32-bit big-endian words (4 bytes per word). -/
def toWords : List Nat → List Nat
  | b0 :: b1 :: b2 :: b3 :: rest =>
      (((b0 * 256 + b1) * 256 + b2) * 256 + b3) :: toWords rest
  | _ => []

/-- Extend the 16-word message schedule by `n` further words. -/
def extendSchedule (w : List Nat) : Nat → List Nat
  | 0 => w
  | n + 1 =>
    let i := w.length
    let nw := (smallSigma1 (w.getD (i - 2) 0) + w.getD (i - 7) 0 +
               smallSigma0 (w.getD (i - 15) 0) + w.getD (i - 16) 0) % w32
    extendSchedule (w ++ [nw]) n

/-- One SHA-256 compression round. -/
def shaRound (st : Hash8) (kt wt : Nat) : Hash8 :=
  let t1 := (st.h + bigSigma1 st.e + chF st.e st.f st.g + kt + wt) % w32
  let t2 := (bigSigma0 st.a + majF st.a st.b st.c) % w32
  { a := (t1 + t2) % w32, b := st.a, c := st.b, d := st.c,
    e := (st.d + t1) % w32, f := st.e, g := st.f, h := st.g }

/-- Compress one 64-byte block into the running hash state. -/
def compressBlock (h8 : Hash8) (block : List Nat) : Hash8 :=
  let ws := extendSchedule (toWords block) 48
  let st := (shaK.zip ws).foldl (fun s kw => shaRound s kw.1 kw.2) h8
  { a := (h8.a + st.a) % w32, b := (h8.b + st.b) % w32,
    c := (h8.c + st.c) % w32, d := (h8.d + st.d) % w32,
    e := (h8.e + st.e) % w32, f := (h8.f + st.f) % w32,
    g := (h8.g + st.g) % w32, h := (h8.h + st.h) % w32 }

/-- SHA-256 message padding: a 0x80 byte, zeros to 56 mod 64, then the
bit length as 8 big-endian bytes. -/
def padMsg (msg : List Nat) : List Nat :=
  msg ++ [0x80] ++ List.replicate ((119 - (msg.length % 64)) % 64) 0 ++
    beBytes 8 (msg.length * 8)

/-- Split a list into consecutive slices of `size` elements (the last may be
shorter), structural recursion on a length fuel. This mirrors the source's
`chunk_list`, which slices `lst[i:i+size]` for `i in range(0, len(lst), size)`;
for `size = 0` the source's `range` raises, and the model returns `[]` (no
claim uses a non-positive size). -/
def chunkFuel : Nat → List α → Nat → List (List α)
  | 0, _, _ => []
  | _ + 1, [], _ => []
  | fuel + 1, x :: xs, s => (x :: xs).take s :: chunkFuel fuel ((x :: xs).drop s) s

/-- The source's `chunk_list(lst, size)` generator, materialized as a list. -/
def chunk_list (l : List α) (size : Nat) : List (List α) :=
  match size with
  | 0 => []
  | s + 1 => chunkFuel l.length l (s + 1)

/-- SHA-256 digest of a byte list, as 32 digest bytes. -/
def sha256Bytes (msg : List Nat) : List Nat :=
  let fin := (chunk_list (padMsg msg) 64).foldl compressBlock shaInit
  beBytes 4 fin.a ++ beBytes 4 fin.b ++ beBytes 4 fin.c ++ beBytes 4 fin.d ++
  beBytes 4 fin.e ++ beBytes 4 fin.f ++ beBytes 4 fin.g ++ beBytes 4 fin.h

/-- Lowercase hex digit for a value below 16. -/
def hexChar (n : Nat) : Char :=
  if n < 10 then Char.ofNat (48 + n) else Char.ofNat (87 + n)

/-- Two lowercase hex digits of one byte. -/
def byteHex (b : Nat) : String := String.mk [hexChar (b / 16), hexChar (b % 16)]

/-- Lowercase hex digest of a byte list, as `hexdigest()` renders it. -/
def sha256hex (msg : List Nat) : String :=
  String.join ((sha256Bytes msg).map byteHex)

/-- UTF-8 encoding of one character, as `str.encode()` produces. -/
def utf8Char (c : Char) : List Nat :=
  let n := c.toNat
  if n < 0x80 then [n]
  else if n < 0x800 then [0xC0 ||| (n >>> 6), 0x80 ||| (n &&& 0x3F)]
  else if n < 0x10000 then
    [0xE0 ||| (n >>> 12), 0x80 ||| ((n >>> 6) &&& 0x3F), 0x80 ||| (n &&& 0x3F)]
  else
    [0xF0 ||| (n >>> 18), 0x80 ||| ((n >>> 12) &&& 0x3F),
     0x80 ||| ((n >>> 6) &&& 0x3F), 0x80 ||| (n &&& 0x3F)]

/-- UTF-8 bytes of a string. -/
def utf8Bytes (s : String) : List Nat := s.data.flatMap utf8Char

/-- Validation of the hash model against the NIST SHA-256 test vector for
the three-byte message `abc`. -/
theorem sha256hex_nist_abc :
    sha256hex (utf8Bytes "abc") =
      "ba7816bf8f01cfea414140de5dae2223b00361a396177a9cb410ff61f20015ad" := by
  decide

/- ------------------------------------------------------------------
Python value model: what `str(v)` produces for the value kinds that
appear in the pipeline's row dict (strings, `None`, booleans, and the
`date.today()` value, whose `str` is its ISO form and which the model
carries already rendered).
------------------------------------------------------------------ -/

/-- A Python value as it appears among `row.values()` in the source:
a string, `None`, a boolean, or a `datetime.date` (carried as its ISO
string, which is exactly what `str` renders it as). -/
inductive PyVal where
  | pstr (s : String)
  | pnone
  | pbool (b : Bool)
  | pdate (iso : String)
deriving DecidableEq

/-- Python `str(v)` for the modelled value kinds: `str(None) = "None"`,
`str(True) = "True"`, `str(False) = "False"`, dates render as ISO. -/
def pyStr : PyVal → String
  | .pstr s => s
  | .pnone => "None"
  | .pbool true => "True"
  | .pbool false => "False"
  | .pdate d => d

/-- Tail of Python `sep.join`: each further element is preceded by the
separator. -/
def joinTail (sep : String) : List String → String
  | [] => ""
  | y :: ys => sep ++ y ++ joinTail sep ys

/-- Python `sep.join(parts)`. -/
def pyJoin (sep : String) : List String → String
  | [] => ""
  | x :: xs => x ++ joinTail sep xs

/-- The string the source hashes: `"|".join([str(v) for v in row.values()])`,
for a row given as its ordered value list. -/
def hashInput (vals : List PyVal) : String :=
  pyJoin "|" (vals.map pyStr)

/-- The source's `generate_hash(row)`:
`hashlib.sha256(raw.encode()).hexdigest()` over the joined value string. -/
def generate_hash (vals : List PyVal) : String :=
  sha256hex (utf8Bytes (hashInput vals))

/- ------------------------------------------------------------------
Metadata fetchers. Each fetcher runs an HTTP request inside
`try: ... except Exception: pass` and then `return None`; the model makes
the outcome of the request (including any exception while requesting or
parsing) an explicit argument, and the fetcher a total function on it.
------------------------------------------------------------------ -/

/-- Outcome of one `requests.get` call: an exception (transport error,
timeout, ...) or a response with a status code and a parsed body. -/
inductive HttpOutcome (β : Type) where
  | exn
  | resp (status : Nat) (body : β)
deriving DecidableEq

/-- The structured object `fetch_crossref` hands back: the `message`
payload, of which the pipeline later reads `title`, `publisher`,
`subjects` and `prefix` via `dict.get` (each possibly missing). -/
structure CrossrefRec where
  title : Option String
  publisher : Option String
  subjects : Option (List String)
  doiPref : Option String
deriving DecidableEq

/-- Body of a crossref response: either `r.json()["message"]` succeeds with
a record, or the body is malformed (json parse failure or missing
`"message"` key — both raise inside the `try` and are swallowed). -/
inductive CrossrefBody where
  | malformed
  | message (rec : CrossrefRec)
deriving DecidableEq

/-- The structured object `fetch_openalex` hands back: the first element of
`r.json()["results"]`, of which the pipeline later reads `country_code`
and `is_oa`. -/
structure OpenAlexRec where
  country_code : Option String
  is_oa : Option Bool
deriving DecidableEq

/-- Body of an openalex response: either `r.json()["results"]` succeeds
with a list, or the body is malformed (raises inside the `try`). -/
inductive OpenAlexBody where
  | malformed
  | results (rs : List OpenAlexRec)
deriving DecidableEq

/-- The source's `fetch_crossref(issn)`, as a function of the outcome of its
one HTTP call: on status 200 it returns `r.json()["message"]`; any
exception is swallowed and every other path falls through to `return None`. -/
def fetch_crossref (o : HttpOutcome CrossrefBody) : Option CrossrefRec :=
  match o with
  | .exn => none
  | .resp status body =>
    if status = 200 then
      match body with
      | .malformed => none
      | .message rec => some rec
    else none

/-- The source's `fetch_openalex(issn)`, as a function of the outcome of its
one HTTP call: on status 200 with a non-empty (truthy) `results` list it
returns the first element; any exception is swallowed and every other path
falls through to `return None`. -/
def fetch_openalex (o : HttpOutcome OpenAlexBody) : Option OpenAlexRec :=
  match o with
  | .exn => none
  | .resp status body =>
    if status = 200 then
      match body with
      | .malformed => none
      | .results [] => none
      | .results (r :: _) => some r
    else none

/- ------------------------------------------------------------------
The orchestrator `run_pipeline`. The database connection becomes an
explicit fact-table state (a list of inserted rows); the fetchers'
network behaviour becomes two per-identifier outcome oracles; the bulk
insert's possible failure becomes a predicate on the batch being
inserted. The run additionally records observations the claims speak
about: the rows inserted, the fetch calls issued, and the number of
batch iterations completed.
------------------------------------------------------------------ -/

/-- The `row` dict built per identifier in `run_pipeline`, with its nine
keys in insertion order. -/
structure CanonicalRow where
  issn : String
  journal_title : Option String
  publisher : Option String
  subjects : Option String
  country : Option String
  open_access : Option Bool
  doiPref : Option String
  source : String
  fetch_date : String
deriving DecidableEq

/-- Python value of an optional string slot (`None` when absent). -/
def optS : Option String → PyVal
  | some s => .pstr s
  | none => .pnone

/-- Python value of an optional boolean slot (`None` when absent). -/
def optB : Option Bool → PyVal
  | some b => .pbool b
  | none => .pnone

/-- The `row.values()` sequence, in the dict's insertion order. -/
def rowValues (r : CanonicalRow) : List PyVal :=
  [.pstr r.issn, optS r.journal_title, optS r.publisher, optS r.subjects,
   optS r.country, optB r.open_access, optS r.doiPref, .pstr r.source,
   .pdate r.fetch_date]

/-- The row built in the batch loop: every crossref-derived field is
`crossref.get(...) if crossref else None`, subjects is
`", ".join(crossref.get("subjects", [])) if crossref else None`, and the
openalex-derived fields mirror that. -/
def buildRow (issn : String) (crossref : Option CrossrefRec)
    (openalex : Option OpenAlexRec) (today : String) : CanonicalRow :=
  { issn := issn
    journal_title := crossref.bind (·.title)
    publisher := crossref.bind (·.publisher)
    subjects := crossref.map (fun c => pyJoin ", " (c.subjects.getD []))
    country := openalex.bind (·.country_code)
    open_access := openalex.bind (·.is_oa)
    doiPref := crossref.bind (·.doiPref)
    source := "crossref+openalex"
    fetch_date := today }

/-- One persisted row of `issn_metadata_fact`: the canonical row's columns
plus `record_hash`. -/
structure FactRow where
  row : CanonicalRow
  record_hash : String
deriving DecidableEq

/-- The source's `record_exists(cur, issn, record_hash)`: an exact
`(issn, record_hash)` point lookup against the fact table. -/
def record_exists (db : List FactRow) (issn record_hash : String) : Bool :=
  db.any (fun fr => fr.row.issn == issn && fr.record_hash == record_hash)

/-- Per-identifier fetch oracles: the outcome each upstream service
produces for a given identifier (fixed for the duration of a run). -/
structure FetchWorld where
  cr : String → HttpOutcome CrossrefBody
  oa : String → HttpOutcome OpenAlexBody

/-- The per-identifier body of the batch loop: fetch from both services,
build the row, hash it, and keep the row for insertion unless
`record_exists` already finds its `(issn, record_hash)` pair. -/
def processIssn (w : FetchWorld) (today : String) (db : List FactRow)
    (issn : String) : Option FactRow :=
  let crossref := fetch_crossref (w.cr issn)
  let openalex := fetch_openalex (w.oa issn)
  let row := buildRow issn crossref openalex today
  let record_hash := generate_hash (rowValues row)
  if record_exists db issn record_hash then none else some ⟨row, record_hash⟩

/-- The `rows_to_insert` list one batch accumulates, in batch order.
Every existence check runs against the table as it stood when the batch
started, because the batch's own rows are only sent afterwards. -/
def batchRows (w : FetchWorld) (today : String) (db : List FactRow)
    (batch : List String) : List FactRow :=
  batch.filterMap (processIssn w today db)

/-- One fetch call the orchestrator issues. -/
inductive FetchCall where
  | callCr (issn : String)
  | callOa (issn : String)
deriving DecidableEq

/-- The two fetch calls issued for one identifier, in program order. -/
def issnCalls (issn : String) : List FetchCall :=
  [.callCr issn, .callOa issn]

/-- Observable state of a run: the fact table, the rows this run inserted,
the fetch calls issued, whether the run is still alive (no propagated
insert exception), and the number of completed batch iterations. -/
structure RunState where
  db : List FactRow
  inserted : List FactRow
  trace : List FetchCall
  ok : Bool
  batches : Nat
deriving DecidableEq

/-- The batch loop of `run_pipeline`: per batch, process every identifier,
then — when `rows_to_insert` is non-empty — bulk insert and commit, which
the `insertFails` oracle may make raise. A raised insert aborts the run on
the spot (the exception propagates uncaught), leaving the table as the
previous commits left it. -/
def pipelineRun (w : FetchWorld) (today : String)
    (insertFails : List FactRow → Bool) (st : RunState) :
    List (List String) → RunState
  | [] => st
  | batch :: rest =>
    let calls := batch.flatMap issnCalls
    let rows := batchRows w today st.db batch
    if rows.isEmpty then
      pipelineRun w today insertFails
        { st with trace := st.trace ++ calls, batches := st.batches + 1 } rest
    else if insertFails rows then
      { st with trace := st.trace ++ calls, ok := false }
    else
      pipelineRun w today insertFails
        { st with db := st.db ++ rows, inserted := st.inserted ++ rows,
                  trace := st.trace ++ calls, batches := st.batches + 1 } rest

/-- The source's `BATCH_SIZE` constant. -/
def BATCH_SIZE : Nat := 100

/-- The source's `run_pipeline()`, from a given master identifier list and
initial fact table: chunk the identifiers by `BATCH_SIZE` and run the
batch loop. -/
def run_pipeline (w : FetchWorld) (today : String)
    (insertFails : List FactRow → Bool) (db : List FactRow)
    (issns : List String) : RunState :=
  pipelineRun w today insertFails ⟨db, [], [], true, 0⟩
    (chunk_list issns BATCH_SIZE)

/-- An insert oracle under which every bulk insert succeeds. -/
def noFail : List FactRow → Bool := fun _ => false

/-- The canonical row a given identifier gets on a given run (the fetch
results are a function of the identifier, so the row is too). -/
def rowOf (w : FetchWorld) (today issn : String) : CanonicalRow :=
  buildRow issn (fetch_crossref (w.cr issn)) (fetch_openalex (w.oa issn)) today

/-- The fingerprint a given identifier gets on a given run. -/
def hashOf (w : FetchWorld) (today issn : String) : String :=
  generate_hash (rowValues (rowOf w today issn))

/-- Number of rows in the table carrying a given `(issn, record_hash)` pair. -/
def countPair (db : List FactRow) (issn record_hash : String) : Nat :=
  (db.filter (fun fr => fr.row.issn == issn && fr.record_hash == record_hash)).length

/- ------------------------------------------------------------------
String and join lemmas.
------------------------------------------------------------------ -/

theorem str_data_inj {a b : String} (h : a.data = b.data) : a = b := by
  cases a
  cases b
  exact congrArg String.mk h

theorem drop_len_le {α : Type u} (x : α) (xs : List α) (s n : Nat) (hs : 0 < s)
    (h : (x :: xs).length ≤ n + 1) : ((x :: xs).drop s).length ≤ n := by
  simp [List.length_drop] at h ⊢
  omega

theorem str_cancel_left {p a b : String} (h : p ++ a = p ++ b) : a = b := by
  apply str_data_inj
  have hd : p.data ++ a.data = p.data ++ b.data := by
    rw [← String.data_append, ← String.data_append, h]
  exact List.append_cancel_left hd

theorem str_cancel_right {a b t : String} (h : a ++ t = b ++ t) : a = b := by
  apply str_data_inj
  have hd : a.data ++ t.data = b.data ++ t.data := by
    rw [← String.data_append, ← String.data_append, h]
  exact List.append_cancel_right hd

theorem joinTail_split (sep : String) :
    ∀ (L : List String) (a : String) (B : List String),
      joinTail sep (L ++ a :: B) = (joinTail sep L ++ sep) ++ a ++ joinTail sep B := by
  intro L
  induction L with
  | nil =>
    intro a B
    show sep ++ a ++ joinTail sep B = ("" ++ sep) ++ a ++ joinTail sep B
    have : "" ++ sep = sep := str_data_inj (by simp [String.data_append])
    rw [this]
  | cons x xs ih =>
    intro a B
    show sep ++ x ++ joinTail sep (xs ++ a :: B) =
      ((sep ++ x ++ joinTail sep xs) ++ sep) ++ a ++ joinTail sep B
    rw [ih]
    apply str_data_inj
    simp [String.data_append]

theorem pyJoin_slot_inj (sep : String) :
    ∀ (A : List String) (a b : String) (B : List String),
      pyJoin sep (A ++ a :: B) = pyJoin sep (A ++ b :: B) → a = b := by
  intro A a b B h
  cases A with
  | nil =>
    exact str_cancel_right (h : a ++ joinTail sep B = b ++ joinTail sep B)
  | cons x xs =>
    have h' : x ++ joinTail sep (xs ++ a :: B) = x ++ joinTail sep (xs ++ b :: B) := h
    have h2 := str_cancel_left h'
    rw [joinTail_split, joinTail_split] at h2
    exact str_cancel_left (str_cancel_right h2)

theorem hashInput_slot_ne (pre post : List PyVal) (v v' : PyVal)
    (h : pyStr v ≠ pyStr v') :
    hashInput (pre ++ v :: post) ≠ hashInput (pre ++ v' :: post) := by
  intro heq
  apply h
  apply pyJoin_slot_inj "|" (pre.map pyStr) (pyStr v) (pyStr v') (post.map pyStr)
  simpa [hashInput, List.map_append] using heq

/- ------------------------------------------------------------------
Lemmas about `chunk_list`.
------------------------------------------------------------------ -/

theorem chunkFuel_nil (f s : Nat) : chunkFuel f ([] : List α) s = [] := by
  cases f <;> rfl

theorem chunkFuel_congr : ∀ (f1 f2 : Nat) (l : List α) (s : Nat), 0 < s →
    l.length ≤ f1 → l.length ≤ f2 → chunkFuel f1 l s = chunkFuel f2 l s := by
  intro f1
  induction f1 with
  | zero =>
    intro f2 l s _ h1 _
    have : l = [] := by cases l <;> simp_all
    subst this
    rw [chunkFuel_nil, chunkFuel_nil]
  | succ g1 ih =>
    intro f2 l s hs h1 h2
    cases l with
    | nil => rw [chunkFuel_nil, chunkFuel_nil]
    | cons x xs =>
      cases f2 with
      | zero => simp at h2
      | succ g2 =>
        show (x :: xs).take s :: chunkFuel g1 ((x :: xs).drop s) s =
          (x :: xs).take s :: chunkFuel g2 ((x :: xs).drop s) s
        rw [ih g2 ((x :: xs).drop s) s hs
          (drop_len_le x xs s g1 hs h1) (drop_len_le x xs s g2 hs h2)]

theorem chunk_list_nil (s : Nat) : chunk_list ([] : List α) s = [] := by
  cases s <;> rfl

theorem chunk_list_cons (x : α) (xs : List α) (s : Nat) :
    chunk_list (x :: xs) (s + 1) =
      (x :: xs).take (s + 1) :: chunk_list ((x :: xs).drop (s + 1)) (s + 1) := by
  show chunkFuel (xs.length + 1) (x :: xs) (s + 1) = _
  show (x :: xs).take (s + 1) :: chunkFuel xs.length ((x :: xs).drop (s + 1)) (s + 1) = _
  cases h : (x :: xs).drop (s + 1) with
  | nil => rw [chunkFuel_nil, chunk_list_nil]
  | cons y ys =>
    show _ :: chunkFuel xs.length (y :: ys) (s + 1) =
      _ :: chunkFuel ((y :: ys).length) (y :: ys) (s + 1)
    rw [chunkFuel_congr xs.length ((y :: ys).length) (y :: ys) (s + 1) (by omega)
      (by have h2 := congrArg List.length h
          simp [List.length_drop] at h2
          simp
          omega)
      (by omega)]

theorem chunk_list_flatten_aux (s : Nat) (hs : 0 < s) :
    ∀ (n : Nat) (l : List α), l.length ≤ n → (chunk_list l s).flatten = l := by
  intro n
  induction n with
  | zero =>
    intro l hl
    have : l = [] := by cases l <;> simp_all
    subst this
    rw [chunk_list_nil]
    rfl
  | succ n ih =>
    intro l hl
    cases l with
    | nil => rw [chunk_list_nil]; rfl
    | cons x xs =>
      obtain ⟨t, rfl⟩ : ∃ t, s = t + 1 := ⟨s - 1, by omega⟩
      rw [chunk_list_cons]
      rw [List.flatten_cons]
      rw [ih ((x :: xs).drop (t + 1)) (drop_len_le x xs (t + 1) n (by omega) hl)]
      exact List.take_append_drop _ _

theorem chunk_list_flatten (l : List α) (s : Nat) (hs : 0 < s) :
    (chunk_list l s).flatten = l :=
  chunk_list_flatten_aux s hs l.length l le_rfl

theorem chunk_list_length_aux (s : Nat) (hs : 0 < s) :
    ∀ (n : Nat) (l : List α), l.length ≤ n →
      (chunk_list l s).length = (l.length + s - 1) / s := by
  intro n
  induction n with
  | zero =>
    intro l hl
    have : l = [] := by cases l <;> simp_all
    subst this
    rw [chunk_list_nil]
    simp [Nat.div_eq_of_lt (by omega : s - 1 < s)]
  | succ n ih =>
    intro l hl
    cases l with
    | nil =>
      rw [chunk_list_nil]
      simp [Nat.div_eq_of_lt (by omega : s - 1 < s)]
    | cons x xs =>
      obtain ⟨t, rfl⟩ : ∃ t, s = t + 1 := ⟨s - 1, by omega⟩
      rw [chunk_list_cons]
      rw [List.length_cons]
      rw [ih ((x :: xs).drop (t + 1)) (drop_len_le x xs (t + 1) n (by omega) hl)]
      rw [List.length_drop]
      have hmain : ∀ (m k : Nat), 1 ≤ m → 0 < k →
          (m - k + k - 1) / k + 1 = (m + k - 1) / k := by
        intro m k hm hk
        rcases Nat.le_total k m with hkm | hmk
        · have h1 : m - k + k - 1 = (m - k) + (k - 1) := by omega
          have h2 : m + k - 1 = (m - k) + (k - 1) + k := by omega
          rw [h1, h2, Nat.add_div_right _ hk]
        · have h1 : m - k + k - 1 = k - 1 := by omega
          have h2 : (k - 1) / k = 0 := Nat.div_eq_of_lt (by omega)
          have h3 : m + k - 1 = (m - 1) + k := by omega
          rw [h1, h2, h3, Nat.add_div_right _ hk, Nat.div_eq_of_lt (by omega)]
      exact hmain ((x :: xs).length) (t + 1) (by simp) (by omega)

theorem chunk_list_length (l : List α) (s : Nat) (hs : 0 < s) :
    (chunk_list l s).length = (l.length + s - 1) / s :=
  chunk_list_length_aux s hs l.length l le_rfl

theorem chunk_list_mem_aux (s : Nat) (hs : 0 < s) :
    ∀ (n : Nat) (l : List α), l.length ≤ n →
      ∀ c ∈ chunk_list l s, c ≠ [] ∧ c.length ≤ s := by
  intro n
  induction n with
  | zero =>
    intro l hl c hc
    have : l = [] := by cases l <;> simp_all
    subst this
    rw [chunk_list_nil] at hc
    simp at hc
  | succ n ih =>
    intro l hl c hc
    cases l with
    | nil => rw [chunk_list_nil] at hc; simp at hc
    | cons x xs =>
      obtain ⟨t, rfl⟩ : ∃ t, s = t + 1 := ⟨s - 1, by omega⟩
      rw [chunk_list_cons] at hc
      rcases List.mem_cons.mp hc with rfl | hc'
      · constructor
        · simp [List.take_cons]
        · simp [List.length_take]
      · exact ih ((x :: xs).drop (t + 1)) (drop_len_le x xs (t + 1) n (by omega) hl) c hc'

theorem chunk_list_ne_nil (l : List α) (s : Nat) (hl : l ≠ []) (hs : 0 < s) :
    chunk_list l s ≠ [] := by
  cases l with
  | nil => exact absurd rfl hl
  | cons x xs =>
    obtain ⟨t, rfl⟩ : ∃ t, s = t + 1 := ⟨s - 1, by omega⟩
    rw [chunk_list_cons]
    simp

theorem chunk_list_full_aux (s : Nat) (hs : 0 < s) :
    ∀ (n : Nat) (l : List α), l.length ≤ n →
      ∀ i : Nat, i + 1 < (chunk_list l s).length →
        ((chunk_list l s).getD i []).length = s := by
  intro n
  induction n with
  | zero =>
    intro l hl i hi
    have : l = [] := by cases l <;> simp_all
    subst this
    rw [chunk_list_nil] at hi
    simp at hi
  | succ n ih =>
    intro l hl i hi
    cases l with
    | nil => rw [chunk_list_nil] at hi; simp at hi
    | cons x xs =>
      obtain ⟨t, rfl⟩ : ∃ t, s = t + 1 := ⟨s - 1, by omega⟩
      rw [chunk_list_cons] at hi ⊢
      cases i with
      | zero =>
        rw [List.length_cons] at hi
        have hrest : chunk_list ((x :: xs).drop (t + 1)) (t + 1) ≠ [] := by
          intro hnil
          rw [hnil] at hi
          simp at hi
        have hdrop : (x :: xs).drop (t + 1) ≠ [] := by
          intro hnil
          rw [hnil, chunk_list_nil] at hrest
          exact hrest rfl
        have hlen : t + 1 < (x :: xs).length := by
          by_contra hcon
          apply hdrop
          apply List.eq_nil_of_length_eq_zero
          rw [List.length_drop]
          omega
        show ((x :: xs).take (t + 1)).length = t + 1
        rw [List.length_take]
        omega
      | succ j =>
        rw [List.length_cons] at hi
        show ((chunk_list ((x :: xs).drop (t + 1)) (t + 1)).getD j []).length = t + 1
        exact ih ((x :: xs).drop (t + 1)) (drop_len_le x xs (t + 1) n (by omega) hl) j
          (by omega)

/- ------------------------------------------------------------------
Lemmas about the batch loop.
------------------------------------------------------------------ -/

theorem processIssn_eq (w : FetchWorld) (today : String) (db : List FactRow)
    (issn : String) :
    processIssn w today db issn =
      if record_exists db issn (hashOf w today issn) then none
      else some ⟨rowOf w today issn, hashOf w today issn⟩ := rfl

theorem rowOf_issn (w : FetchWorld) (today issn : String) :
    (rowOf w today issn).issn = issn := rfl

theorem record_exists_append (db ext : List FactRow) (i h : String)
    (hex : record_exists db i h = true) : record_exists (db ++ ext) i h = true := by
  simp only [record_exists] at hex ⊢
  rw [List.any_append, hex]
  rfl

theorem record_exists_of_mem (db : List FactRow) (fr : FactRow)
    (hm : fr ∈ db) : record_exists db fr.row.issn fr.record_hash = true := by
  simp only [record_exists, List.any_eq_true]
  exact ⟨fr, hm, by simp⟩

theorem pipelineRun_cons_noFail (w : FetchWorld) (today : String)
    (st : RunState) (b : List String) (rest : List (List String)) :
    pipelineRun w today noFail st (b :: rest) =
      pipelineRun w today noFail
        { st with db := st.db ++ batchRows w today st.db b,
                  inserted := st.inserted ++ batchRows w today st.db b,
                  trace := st.trace ++ b.flatMap issnCalls,
                  batches := st.batches + 1 } rest := by
  simp only [pipelineRun]
  split
  · next hemp =>
    have hnil : batchRows w today st.db b = [] := List.isEmpty_iff.mp hemp
    rw [hnil]
    simp
  · simp [noFail]

theorem pipelineRun_db_ext (w : FetchWorld) (today : String)
    (f : List FactRow → Bool) :
    ∀ (bs : List (List String)) (st : RunState),
      ∃ ext, (pipelineRun w today f st bs).db = st.db ++ ext := by
  intro bs
  induction bs with
  | nil => intro st; exact ⟨[], by simp [pipelineRun]⟩
  | cons b rest ih =>
    intro st
    simp only [pipelineRun]
    split
    · obtain ⟨ext, hext⟩ := ih _
      exact ⟨ext, hext⟩
    · split
      · exact ⟨[], by simp⟩
      · obtain ⟨ext, hext⟩ := ih
          { st with db := st.db ++ batchRows w today st.db b,
                    inserted := st.inserted ++ batchRows w today st.db b,
                    trace := st.trace ++ b.flatMap issnCalls,
                    batches := st.batches + 1 }
        exact ⟨batchRows w today st.db b ++ ext, by rw [hext]; simp⟩

theorem pipelineRun_covers (w : FetchWorld) (today : String) :
    ∀ (bs : List (List String)) (st : RunState),
      ∀ issn ∈ bs.flatten,
        record_exists (pipelineRun w today noFail st bs).db issn
          (hashOf w today issn) = true := by
  intro bs
  induction bs with
  | nil => intro st issn hm; simp at hm
  | cons b rest ih =>
    intro st issn hm
    rw [List.flatten_cons] at hm
    rw [pipelineRun_cons_noFail]
    rcases List.mem_append.mp hm with hb | hrest
    · have hcur : record_exists (st.db ++ batchRows w today st.db b) issn
          (hashOf w today issn) = true := by
        cases hre : record_exists st.db issn (hashOf w today issn) with
        | true => exact record_exists_append _ _ _ _ hre
        | false =>
          have hsome : processIssn w today st.db issn =
              some ⟨rowOf w today issn, hashOf w today issn⟩ := by
            rw [processIssn_eq, hre]
            rfl
          have hmem : (⟨rowOf w today issn, hashOf w today issn⟩ : FactRow) ∈
              batchRows w today st.db b :=
            List.mem_filterMap.mpr ⟨issn, hb, hsome⟩
          have := record_exists_of_mem (st.db ++ batchRows w today st.db b)
            ⟨rowOf w today issn, hashOf w today issn⟩
            (List.mem_append.mpr (Or.inr hmem))
          simpa [rowOf_issn] using this
      obtain ⟨ext, hext⟩ := pipelineRun_db_ext w today noFail rest
        { st with db := st.db ++ batchRows w today st.db b,
                  inserted := st.inserted ++ batchRows w today st.db b,
                  trace := st.trace ++ b.flatMap issnCalls,
                  batches := st.batches + 1 }
      rw [hext]
      exact record_exists_append _ _ _ _ hcur
    · exact ih _ issn hrest

theorem pipelineRun_noop (w : FetchWorld) (today : String)
    (f : List FactRow → Bool) :
    ∀ (bs : List (List String)) (st : RunState),
      (∀ issn ∈ bs.flatten,
        record_exists st.db issn (hashOf w today issn) = true) →
      (pipelineRun w today f st bs).db = st.db ∧
        (pipelineRun w today f st bs).inserted = st.inserted := by
  intro bs
  induction bs with
  | nil => intro st _; exact ⟨rfl, rfl⟩
  | cons b rest ih =>
    intro st hall
    have hb : ∀ x ∈ b, record_exists st.db x (hashOf w today x) = true := by
      intro x hx
      apply hall x
      rw [List.flatten_cons]
      exact List.mem_append.mpr (Or.inl hx)
    have hnil : batchRows w today st.db b = [] := by
      rw [batchRows, List.filterMap_eq_nil_iff]
      intro x hx
      rw [processIssn_eq, hb x hx]
      rfl
    simp only [pipelineRun, hnil, List.isEmpty_nil, if_true]
    apply ih
    intro issn hm
    apply hall issn
    rw [List.flatten_cons]
    exact List.mem_append.mpr (Or.inr hm)

theorem pipelineRun_ok_noFail (w : FetchWorld) (today : String) :
    ∀ (bs : List (List String)) (st : RunState),
      (pipelineRun w today noFail st bs).ok = st.ok := by
  intro bs
  induction bs with
  | nil => intro st; rfl
  | cons b rest ih =>
    intro st
    rw [pipelineRun_cons_noFail, ih]

theorem pipelineRun_batches_noFail (w : FetchWorld) (today : String) :
    ∀ (bs : List (List String)) (st : RunState),
      (pipelineRun w today noFail st bs).batches = st.batches + bs.length := by
  intro bs
  induction bs with
  | nil => intro st; rfl
  | cons b rest ih =>
    intro st
    rw [pipelineRun_cons_noFail, ih]
    simp only [List.length_cons]
    omega

theorem pipelineRun_trace_noFail (w : FetchWorld) (today : String) :
    ∀ (bs : List (List String)) (st : RunState),
      (pipelineRun w today noFail st bs).trace =
        st.trace ++ (bs.map (fun b => b.flatMap issnCalls)).flatten := by
  intro bs
  induction bs with
  | nil => intro st; simp [pipelineRun]
  | cons b rest ih =>
    intro st
    rw [pipelineRun_cons_noFail, ih]
    simp [List.append_assoc]

theorem flatten_map_flatMap (f : α → List β) :
    ∀ (bs : List (List α)),
      (bs.map (fun b => b.flatMap f)).flatten = bs.flatten.flatMap f := by
  intro bs
  induction bs with
  | nil => rfl
  | cons b rest ih =>
    simp [List.map_cons, List.flatten_cons, List.flatMap_append, ih]

theorem count_callCr (x : String) :
    ∀ (l : List String),
      (l.flatMap issnCalls).count (FetchCall.callCr x) = l.count x := by
  intro l
  induction l with
  | nil => rfl
  | cons y ys ih =>
    show (issnCalls y ++ ys.flatMap issnCalls).count (FetchCall.callCr x) = _
    rw [List.count_append, ih, List.count_cons]
    simp only [issnCalls]
    by_cases hxy : y = x
    · subst hxy
      simp [List.count_cons, List.count_nil]
      omega
    · have h1 : (FetchCall.callCr y == FetchCall.callCr x) = false := by
        simp [hxy]
      have h2 : (FetchCall.callOa y == FetchCall.callCr x) = false := by
        simp
      have h3 : (y == x) = false := by simp [hxy]
      simp [List.count_cons, List.count_nil, h1, h2, h3]

theorem count_callOa (x : String) :
    ∀ (l : List String),
      (l.flatMap issnCalls).count (FetchCall.callOa x) = l.count x := by
  intro l
  induction l with
  | nil => rfl
  | cons y ys ih =>
    show (issnCalls y ++ ys.flatMap issnCalls).count (FetchCall.callOa x) = _
    rw [List.count_append, ih, List.count_cons]
    simp only [issnCalls]
    by_cases hxy : y = x
    · subst hxy
      simp [List.count_cons, List.count_nil]
      omega
    · have h1 : (FetchCall.callOa y == FetchCall.callOa x) = false := by
        simp [hxy]
      have h2 : (FetchCall.callCr y == FetchCall.callOa x) = false := by
        simp
      have h3 : (y == x) = false := by simp [hxy]
      simp [List.count_cons, List.count_nil, h1, h2, h3]

theorem pipelineRun_append (w : FetchWorld) (today : String)
    (f : List FactRow → Bool) :
    ∀ (bs1 bs2 : List (List String)) (st : RunState),
      (pipelineRun w today f st bs1).ok = true →
      pipelineRun w today f st (bs1 ++ bs2) =
        pipelineRun w today f (pipelineRun w today f st bs1) bs2 := by
  intro bs1
  induction bs1 with
  | nil => intro bs2 st _; rfl
  | cons b rest ih =>
    intro bs2 st hok
    rw [List.cons_append]
    simp only [pipelineRun] at hok ⊢
    cases hemp : (batchRows w today st.db b).isEmpty with
    | true =>
      simp only [hemp, if_true, reduceIte] at hok ⊢
      exact ih bs2 _ hok
    | false =>
      cases hf : f (batchRows w today st.db b) with
      | true => simp [hemp, hf] at hok
      | false =>
        simp only [hemp, hf, Bool.false_eq_true, if_false, reduceIte] at hok ⊢
        exact ih bs2 _ hok

theorem pipelineRun_db_inserted (w : FetchWorld) (today : String)
    (f : List FactRow → Bool) :
    ∀ (bs : List (List String)) (st : RunState) (d0 : List FactRow),
      st.db = d0 ++ st.inserted →
      (pipelineRun w today f st bs).db =
        d0 ++ (pipelineRun w today f st bs).inserted := by
  intro bs
  induction bs with
  | nil => intro st d0 hinv; exact hinv
  | cons b rest ih =>
    intro st d0 hinv
    simp only [pipelineRun]
    split
    · exact ih _ d0 hinv
    · split
      · exact hinv
      · exact ih _ d0 (by simp only [hinv, List.append_assoc])

/- ------------------------------------------------------------------
Counting rows with a given (issn, record_hash) pair.
------------------------------------------------------------------ -/

theorem countPair_append (db ext : List FactRow) (i h : String) :
    countPair (db ++ ext) i h = countPair db i h + countPair ext i h := by
  simp [countPair, List.filter_append]

theorem countPair_cons (fr : FactRow) (db : List FactRow) (i h : String) :
    countPair (fr :: db) i h =
      countPair db i h + if fr.row.issn = i ∧ fr.record_hash = h then 1 else 0 := by
  simp only [countPair, List.filter_cons]
  by_cases hp : fr.row.issn = i ∧ fr.record_hash = h
  · rw [if_pos hp]
    have hc : (fr.row.issn == i && fr.record_hash == h) = true := by
      simp [hp.1, hp.2]
    rw [hc]
    simp
  · rw [if_neg hp]
    have hc : (fr.row.issn == i && fr.record_hash == h) = false := by
      rcases not_and_or.mp hp with h1 | h1 <;> simp [h1]
    rw [hc]
    simp

theorem countPair_eq_zero_of_not_exists (db : List FactRow) (i h : String)
    (hre : record_exists db i h = false) : countPair db i h = 0 := by
  simp only [countPair]
  rw [List.length_eq_zero, List.filter_eq_nil_iff]
  intro fr hm hp
  simp only [record_exists, List.any_eq_false] at hre
  exact hre fr hm hp

theorem record_exists_of_countPair_pos (db : List FactRow) (i h : String)
    (hc : 0 < countPair db i h) : record_exists db i h = true := by
  simp only [countPair] at hc
  obtain ⟨fr, hm⟩ := List.exists_mem_of_length_pos hc
  have hmf := List.mem_filter.mp hm
  simp only [record_exists, List.any_eq_true]
  exact ⟨fr, hmf.1, hmf.2⟩

theorem countPair_batchRows_le (w : FetchWorld) (today : String)
    (db : List FactRow) (i h : String) :
    ∀ b : List String, countPair (batchRows w today db b) i h ≤ List.count i b := by
  intro b
  induction b with
  | nil => simp [batchRows, countPair]
  | cons x xs ih =>
    rw [batchRows, List.filterMap_cons, processIssn_eq]
    by_cases hre : record_exists db x (hashOf w today x) = true
    · rw [if_pos hre]
      by_cases hxi : x = i
      · subst hxi
        rw [List.count_cons_self]
        exact Nat.le_trans ih (by omega)
      · rw [List.count_cons_of_ne (fun hcon => hxi hcon.symm)]
        exact ih
    · rw [if_neg hre]
      show countPair (⟨rowOf w today x, hashOf w today x⟩ :: batchRows w today db xs) i h ≤ _
      rw [countPair_cons]
      by_cases hxi : x = i
      · subst hxi
        rw [List.count_cons_self]
        split <;> omega
      · rw [List.count_cons_of_ne (fun hcon => hxi hcon.symm)]
        have hcond : ¬((⟨rowOf w today x, hashOf w today x⟩ : FactRow).row.issn = i ∧
            (⟨rowOf w today x, hashOf w today x⟩ : FactRow).record_hash = h) := by
          intro hcon
          exact hxi hcon.1
        rw [if_neg hcond]
        simpa using ih

theorem countPair_batchRows_zero (w : FetchWorld) (today : String)
    (db : List FactRow) (i h : String) (hre : record_exists db i h = true) :
    ∀ b : List String, countPair (batchRows w today db b) i h = 0 := by
  intro b
  induction b with
  | nil => simp [batchRows, countPair]
  | cons x xs ih =>
    rw [batchRows, List.filterMap_cons, processIssn_eq]
    by_cases hre2 : record_exists db x (hashOf w today x) = true
    · rw [if_pos hre2]
      exact ih
    · rw [if_neg hre2]
      show countPair (⟨rowOf w today x, hashOf w today x⟩ :: batchRows w today db xs) i h = 0
      rw [countPair_cons]
      have hcond : ¬((⟨rowOf w today x, hashOf w today x⟩ : FactRow).row.issn = i ∧
          (⟨rowOf w today x, hashOf w today x⟩ : FactRow).record_hash = h) := by
        intro hcon
        apply hre2
        have h1 : x = i := hcon.1
        have h2 : hashOf w today x = h := hcon.2
        rw [h2, h1]
        exact hre
      rw [if_neg hcond]
      simpa using ih

theorem countPair_run_of_exists (w : FetchWorld) (today : String)
    (f : List FactRow → Bool) :
    ∀ (bs : List (List String)) (st : RunState) (i h : String),
      record_exists st.db i h = true →
      countPair (pipelineRun w today f st bs).db i h = countPair st.db i h := by
  intro bs
  induction bs with
  | nil => intro st i h _; rfl
  | cons b rest ih =>
    intro st i h hre
    simp only [pipelineRun]
    split
    · exact ih _ i h hre
    · split
      · rfl
      · have hnext : countPair (st.db ++ batchRows w today st.db b) i h =
            countPair st.db i h := by
          rw [countPair_append, countPair_batchRows_zero w today st.db i h hre b]
          omega
        rw [ih _ i h (record_exists_append _ _ _ _ hre)]
        exact hnext

theorem countPair_run_le (w : FetchWorld) (today : String)
    (f : List FactRow → Bool) :
    ∀ (bs : List (List String)) (st : RunState) (i h : String),
      (∀ b ∈ bs, List.count i b ≤ 1) →
      countPair (pipelineRun w today f st bs).db i h ≤
        max (countPair st.db i h) 1 := by
  intro bs
  induction bs with
  | nil => intro st i h _; exact Nat.le_max_left _ _
  | cons b rest ih =>
    intro st i h hcnt
    by_cases hre : record_exists st.db i h = true
    · rw [countPair_run_of_exists w today f (b :: rest) st i h hre]
      exact Nat.le_max_left _ _
    · have hre0 : record_exists st.db i h = false := by
        cases hb : record_exists st.db i h with
        | true => exact absurd hb hre
        | false => rfl
      have hz : countPair st.db i h = 0 :=
        countPair_eq_zero_of_not_exists st.db i h hre0
      simp only [pipelineRun]
      split
      · exact ih
          { st with trace := st.trace ++ b.flatMap issnCalls,
                    batches := st.batches + 1 } i h
          (fun b' hb' => hcnt b' (List.mem_cons_of_mem b hb'))
      · split
        · show countPair st.db i h ≤ max (countPair st.db i h) 1
          exact Nat.le_max_left _ _
        · rcases Nat.eq_zero_or_pos
            (countPair (st.db ++ batchRows w today st.db b) i h) with hz2 | hp2
          · have hstep := ih
              { st with db := st.db ++ batchRows w today st.db b,
                        inserted := st.inserted ++ batchRows w today st.db b,
                        trace := st.trace ++ b.flatMap issnCalls,
                        batches := st.batches + 1 } i h
              (fun b' hb' => hcnt b' (List.mem_cons_of_mem b hb'))
            have hmax : max (countPair (({ st with
                db := st.db ++ batchRows w today st.db b,
                inserted := st.inserted ++ batchRows w today st.db b,
                trace := st.trace ++ b.flatMap issnCalls,
                batches := st.batches + 1 } : RunState)).db i h) 1 = 1 := by
              show max (countPair (st.db ++ batchRows w today st.db b) i h) 1 = 1
              rw [hz2]
              rfl
            rw [hmax] at hstep
            exact Nat.le_trans hstep (Nat.le_max_right _ _)
          · have hre2 : record_exists (st.db ++ batchRows w today st.db b) i h = true :=
              record_exists_of_countPair_pos _ i h hp2
            have hrun := countPair_run_of_exists w today f rest
              { st with db := st.db ++ batchRows w today st.db b,
                        inserted := st.inserted ++ batchRows w today st.db b,
                        trace := st.trace ++ b.flatMap issnCalls,
                        batches := st.batches + 1 } i h hre2
            rw [hrun]
            show countPair (st.db ++ batchRows w today st.db b) i h ≤
              max (countPair st.db i h) 1
            rw [countPair_append, hz]
            have hrows := Nat.le_trans (countPair_batchRows_le w today st.db i h b)
              (hcnt b (List.mem_cons_self b rest))
            simpa using hrows

/- ------------------------------------------------------------------
Claim theorems.
------------------------------------------------------------------ -/

/-- C1: running the pipeline twice in immediate succession — same date,
identical fetcher responses, no upstream changes — inserts zero new rows on
the second run: every identifier's fingerprint is found by the existence
check against the table the first run left behind, so every row is filtered
out before the bulk insert and the table is unchanged. -/
theorem c1_second_run_inserts_nothing (w : FetchWorld) (today : String)
    (db0 : List FactRow) (issns : List String) :
    (run_pipeline w today noFail
        (run_pipeline w today noFail db0 issns).db issns).inserted = [] ∧
    (run_pipeline w today noFail
        (run_pipeline w today noFail db0 issns).db issns).db =
      (run_pipeline w today noFail db0 issns).db := by
  have hcov : ∀ issn ∈ (chunk_list issns BATCH_SIZE).flatten,
      record_exists (run_pipeline w today noFail db0 issns).db issn
        (hashOf w today issn) = true := by
    intro issn hm
    exact pipelineRun_covers w today (chunk_list issns BATCH_SIZE)
      ⟨db0, [], [], true, 0⟩ issn hm
  have hno := pipelineRun_noop w today noFail (chunk_list issns BATCH_SIZE)
    ⟨(run_pipeline w today noFail db0 issns).db, [], [], true, 0⟩
    (fun issn hm => hcov issn hm)
  exact ⟨hno.2, hno.1⟩

/-- C2 counterexample: replacing a field's value `None` by the different
value `"None"` (a string) leaves the fingerprint unchanged, because
`str(None)` is the string `"None"`, so the hashed pre-image is identical.
This falsifies the claim that changing any single field's value — including
toggling a field from null to a concrete value — changes the fingerprint. -/
theorem c2_counterexample :
    PyVal.pnone ≠ PyVal.pstr "None" ∧
    generate_hash [PyVal.pstr "0001-0001", PyVal.pnone] =
      generate_hash [PyVal.pstr "0001-0001", PyVal.pstr "None"] := by
  constructor
  · decide
  · rfl

/-- C2 (amended): replacing a single field's value by a value whose Python
string form differs changes the hashed pre-image string, and therefore
changes the fingerprint unless the two distinct pre-images collide under
SHA-256; values with the same string form (such as `None` and `"None"`)
leave the fingerprint unchanged. -/
theorem c2_amended (pre post : List PyVal) (v v' : PyVal)
    (hne : pyStr v ≠ pyStr v') :
    hashInput (pre ++ v :: post) ≠ hashInput (pre ++ v' :: post) ∧
    (generate_hash (pre ++ v :: post) = generate_hash (pre ++ v' :: post) →
      ∃ s t : String, s ≠ t ∧ sha256hex (utf8Bytes s) = sha256hex (utf8Bytes t)) := by
  have hih := hashInput_slot_ne pre post v v' hne
  exact ⟨hih, fun hgh =>
    ⟨hashInput (pre ++ v :: post), hashInput (pre ++ v' :: post), hih, hgh⟩⟩

theorem c2_amended_witness :
    pyStr (PyVal.pstr "a") ≠ pyStr (PyVal.pstr "b") ∧
    hashInput [PyVal.pstr "a"] ≠ hashInput [PyVal.pstr "b"] :=
  ⟨by decide, (c2_amended [] [] (PyVal.pstr "a") (PyVal.pstr "b") (by decide)).1⟩

/-- C3 counterexample: with the same identifier listed twice, both
occurrences land in the same batch; the existence check consults only the
persisted table (not the pending `rows_to_insert` buffer), so the identical
`(identifier, fingerprint)` row is inserted twice in one run. -/
theorem c3_counterexample :
    ((run_pipeline ⟨fun _ => HttpOutcome.exn, fun _ => HttpOutcome.exn⟩
        "2024-01-01" noFail [] ["0001-0001", "0001-0001"]).inserted.map
          (fun fr => (fr.row.issn, fr.record_hash))) =
      [("0001-0001",
        generate_hash (rowValues (buildRow "0001-0001" none none "2024-01-01"))),
       ("0001-0001",
        generate_hash (rowValues (buildRow "0001-0001" none none "2024-01-01")))] := by
  rfl

/-- C3 (amended): provided no identifier occurs twice within a single batch
(in particular, whenever the loaded identifier list is duplicate-free), at
most one row per `(identifier, fingerprint)` pair is ever added: the final
table holds at most `max(initial count, 1)` rows with any given pair, for
every fetch behaviour and every insert-failure behaviour. -/
theorem c3_amended (w : FetchWorld) (today : String) (f : List FactRow → Bool)
    (db0 : List FactRow) (issns : List String) (issn h : String)
    (hdup : ∀ b ∈ chunk_list issns BATCH_SIZE, List.count issn b ≤ 1) :
    countPair (run_pipeline w today f db0 issns).db issn h ≤
      max (countPair db0 issn h) 1 :=
  countPair_run_le w today f (chunk_list issns BATCH_SIZE)
    ⟨db0, [], [], true, 0⟩ issn h hdup

theorem c3_amended_witness :
    (∀ b ∈ chunk_list ["0001-0001"] BATCH_SIZE, List.count "0001-0001" b ≤ 1) ∧
    countPair (run_pipeline ⟨fun _ => HttpOutcome.exn, fun _ => HttpOutcome.exn⟩
        "2024-01-01" noFail [] ["0001-0001"]).db "0001-0001" "" ≤
      max (countPair [] "0001-0001" "") 1 :=
  ⟨by decide,
   c3_amended ⟨fun _ => HttpOutcome.exn, fun _ => HttpOutcome.exn⟩ "2024-01-01"
     noFail [] ["0001-0001"] "0001-0001" "" (by decide)⟩

/-- C4: evaluation at the failing input. Two runs with identical fetcher
outcomes on consecutive dates: the first run inserts the identifier's row,
and — contrary to the claim that no new fact row appears when upstream
metadata is unchanged — the second run inserts a row again, because
`fetch_date` is one of the hashed dict values, so the fingerprint changes
with the date and the existence check cannot find it. -/
theorem c4_new_date_reinserts :
    (run_pipeline ⟨fun _ => HttpOutcome.exn, fun _ => HttpOutcome.exn⟩
        "2024-01-01" noFail [] ["0001-0001"]).inserted.length = 1 ∧
    (run_pipeline ⟨fun _ => HttpOutcome.exn, fun _ => HttpOutcome.exn⟩
        "2024-01-02" noFail
        (run_pipeline ⟨fun _ => HttpOutcome.exn, fun _ => HttpOutcome.exn⟩
          "2024-01-01" noFail [] ["0001-0001"]).db
        ["0001-0001"]).inserted.length = 1 := by
  constructor
  · rfl
  · decide

/-- C5: each fetcher is a total function into an optional structured
record — it returns either a record or the absent value, never propagating
an exception — and every failure mode (transport error or timeout, any
non-200 status, malformed body, and for openalex an empty results list)
collapses to the absent value. -/
theorem c5_fetchers_never_throw (oc : HttpOutcome CrossrefBody)
    (oo : HttpOutcome OpenAlexBody) :
    (fetch_crossref oc = none ∨ ∃ r, fetch_crossref oc = some r) ∧
    (fetch_openalex oo = none ∨ ∃ r, fetch_openalex oo = some r) ∧
    fetch_crossref HttpOutcome.exn = none ∧
    fetch_openalex HttpOutcome.exn = none ∧
    (∀ (s : Nat) (b : CrossrefBody), s ≠ 200 →
      fetch_crossref (HttpOutcome.resp s b) = none) ∧
    (∀ (s : Nat) (b : OpenAlexBody), s ≠ 200 →
      fetch_openalex (HttpOutcome.resp s b) = none) ∧
    (∀ s : Nat, fetch_crossref (HttpOutcome.resp s CrossrefBody.malformed) = none) ∧
    (∀ s : Nat, fetch_openalex (HttpOutcome.resp s OpenAlexBody.malformed) = none) ∧
    (∀ s : Nat, fetch_openalex (HttpOutcome.resp s (OpenAlexBody.results [])) = none) := by
  refine ⟨?_, ?_, rfl, rfl, ?_, ?_, ?_, ?_, ?_⟩
  · cases h : fetch_crossref oc with
    | none => exact Or.inl rfl
    | some r => exact Or.inr ⟨r, rfl⟩
  · cases h : fetch_openalex oo with
    | none => exact Or.inl rfl
    | some r => exact Or.inr ⟨r, rfl⟩
  · intro s b hs
    simp [fetch_crossref, hs]
  · intro s b hs
    simp [fetch_openalex, hs]
  · intro s
    by_cases hs : s = 200 <;> simp [fetch_crossref, hs]
  · intro s
    by_cases hs : s = 200 <;> simp [fetch_openalex, hs]
  · intro s
    by_cases hs : s = 200 <;> simp [fetch_openalex, hs]

theorem c5_witness :
    fetch_crossref (HttpOutcome.resp 404 CrossrefBody.malformed) = none := by
  have h := c5_fetchers_never_throw (HttpOutcome.resp 404 CrossrefBody.malformed)
    HttpOutcome.exn
  exact h.2.2.2.2.1 404 CrossrefBody.malformed (by decide)

/-- C6: when the bulk insert of batch `k` raises, the run aborts on the
spot with the exception propagated (no later batch is processed), and the
fact table is exactly what the earlier batches' committed inserts left:
the initial table extended by everything inserted before batch `k`. -/
theorem c6_insert_failure_aborts (w : FetchWorld) (today : String)
    (f : List FactRow → Bool) (db0 : List FactRow) (issns : List String)
    (pre : List (List String)) (b : List String) (post : List (List String))
    (hchunk : chunk_list issns BATCH_SIZE = pre ++ b :: post)
    (hpre : (pipelineRun w today f ⟨db0, [], [], true, 0⟩ pre).ok = true)
    (hrows : (batchRows w today
        (pipelineRun w today f ⟨db0, [], [], true, 0⟩ pre).db b).isEmpty = false)
    (hfail : f (batchRows w today
        (pipelineRun w today f ⟨db0, [], [], true, 0⟩ pre).db b) = true) :
    (run_pipeline w today f db0 issns).ok = false ∧
    (run_pipeline w today f db0 issns).db =
      (pipelineRun w today f ⟨db0, [], [], true, 0⟩ pre).db ∧
    (run_pipeline w today f db0 issns).db =
      db0 ++ (pipelineRun w today f ⟨db0, [], [], true, 0⟩ pre).inserted := by
  have hrun : run_pipeline w today f db0 issns =
      pipelineRun w today f
        (pipelineRun w today f ⟨db0, [], [], true, 0⟩ pre) (b :: post) := by
    show pipelineRun w today f ⟨db0, [], [], true, 0⟩ (chunk_list issns BATCH_SIZE) = _
    rw [hchunk]
    exact pipelineRun_append w today f pre (b :: post) ⟨db0, [], [], true, 0⟩ hpre
  have hstep : pipelineRun w today f
      (pipelineRun w today f ⟨db0, [], [], true, 0⟩ pre) (b :: post) =
      { pipelineRun w today f ⟨db0, [], [], true, 0⟩ pre with
        trace := (pipelineRun w today f ⟨db0, [], [], true, 0⟩ pre).trace ++
          b.flatMap issnCalls,
        ok := false } := by
    simp only [pipelineRun, hrows, hfail]
    simp
  have hinv : (pipelineRun w today f ⟨db0, [], [], true, 0⟩ pre).db =
      db0 ++ (pipelineRun w today f ⟨db0, [], [], true, 0⟩ pre).inserted :=
    pipelineRun_db_inserted w today f pre ⟨db0, [], [], true, 0⟩ db0 (by simp)
  rw [hrun, hstep]
  exact ⟨rfl, rfl, hinv⟩

theorem c6_witness :
    (run_pipeline ⟨fun _ => HttpOutcome.exn, fun _ => HttpOutcome.exn⟩
        "2024-01-01" (fun _ => true) [] ["1111-1111"]).ok = false ∧
    (run_pipeline ⟨fun _ => HttpOutcome.exn, fun _ => HttpOutcome.exn⟩
        "2024-01-01" (fun _ => true) [] ["1111-1111"]).db = [] :=
  ⟨(c6_insert_failure_aborts ⟨fun _ => HttpOutcome.exn, fun _ => HttpOutcome.exn⟩
      "2024-01-01" (fun _ => true) [] ["1111-1111"] [] ["1111-1111"] []
      (by decide) rfl (by decide) rfl).1,
   (c6_insert_failure_aborts ⟨fun _ => HttpOutcome.exn, fun _ => HttpOutcome.exn⟩
      "2024-01-01" (fun _ => true) [] ["1111-1111"] [] ["1111-1111"] []
      (by decide) rfl (by decide) rfl).2.1⟩

/-- C7: for every identifier list and positive batch size the chunking
yields exactly `ceil(N/B)` batches whose concatenation is the list itself,
and the orchestrator completes exactly `ceil(N/BATCH_SIZE)` batch
iterations on a run with no insert failure. -/
theorem c7_batch_completeness (l : List String) (B : Nat) (hB : 0 < B) :
    ((chunk_list l B).length = (l.length + B - 1) / B ∧
      (chunk_list l B).flatten = l) ∧
    (∀ (w : FetchWorld) (today : String) (db : List FactRow)
        (issns : List String),
      (run_pipeline w today noFail db issns).batches =
        (issns.length + BATCH_SIZE - 1) / BATCH_SIZE) := by
  refine ⟨⟨chunk_list_length l B hB, chunk_list_flatten l B hB⟩, ?_⟩
  intro w today db issns
  show (pipelineRun w today noFail ⟨db, [], [], true, 0⟩
    (chunk_list issns BATCH_SIZE)).batches = _
  rw [pipelineRun_batches_noFail]
  show 0 + (chunk_list issns BATCH_SIZE).length = _
  rw [chunk_list_length issns BATCH_SIZE (by decide)]
  omega

theorem c7_witness :
    0 < 3 ∧
    ((chunk_list ["a", "b", "c", "d"] 3).length =
        ((["a", "b", "c", "d"] : List String).length + 3 - 1) / 3 ∧
      (chunk_list ["a", "b", "c", "d"] 3).flatten = ["a", "b", "c", "d"]) :=
  ⟨by decide, (c7_batch_completeness ["a", "b", "c", "d"] 3 (by decide)).1⟩

/-- C8: for every fetch behaviour — including timeouts and exceptions in
either fetcher — the orchestrator's call trace is exactly one crossref call
followed by one openalex call per identifier occurrence, in list order; in
particular each fetcher is invoked exactly as many times per identifier as
the identifier occurs, so no fetcher outcome suppresses the other fetcher
or the processing of later identifiers. -/
theorem c8_both_fetchers_always_invoked (w : FetchWorld) (today : String)
    (db : List FactRow) (issns : List String) :
    (run_pipeline w today noFail db issns).trace = issns.flatMap issnCalls ∧
    (∀ x : String,
      (run_pipeline w today noFail db issns).trace.count (FetchCall.callCr x) =
        issns.count x ∧
      (run_pipeline w today noFail db issns).trace.count (FetchCall.callOa x) =
        issns.count x) := by
  have htr : (run_pipeline w today noFail db issns).trace =
      issns.flatMap issnCalls := by
    show (pipelineRun w today noFail ⟨db, [], [], true, 0⟩
      (chunk_list issns BATCH_SIZE)).trace = _
    rw [pipelineRun_trace_noFail]
    show [] ++ _ = _
    rw [List.nil_append, flatten_map_flatMap,
      chunk_list_flatten issns BATCH_SIZE (by decide)]
  refine ⟨htr, fun x => ?_⟩
  rw [htr]
  exact ⟨count_callCr x issns, count_callOa x issns⟩

/-- C9: for every list and positive chunk size, concatenating the chunks of
`chunk_list` in order yields exactly the original list; every chunk is
non-empty with length at most the chunk size; and every chunk except
possibly the last has length exactly the chunk size. -/
theorem c9_chunk_list_partition (l : List String) (s : Nat) (hs : 0 < s) :
    (chunk_list l s).flatten = l ∧
    (∀ c ∈ chunk_list l s, c ≠ [] ∧ c.length ≤ s) ∧
    (∀ i : Nat, i + 1 < (chunk_list l s).length →
      ((chunk_list l s).getD i []).length = s) :=
  ⟨chunk_list_flatten l s hs,
   fun c hc => chunk_list_mem_aux s hs l.length l le_rfl c hc,
   fun i hi => chunk_list_full_aux s hs l.length l le_rfl i hi⟩

theorem c9_witness :
    0 < 2 ∧
    ((chunk_list ["a", "b", "c"] 2).flatten = ["a", "b", "c"] ∧
      (∀ c ∈ chunk_list ["a", "b", "c"] 2, c ≠ [] ∧ c.length ≤ 2) ∧
      (∀ i : Nat, i + 1 < (chunk_list ["a", "b", "c"] 2).length →
        ((chunk_list ["a", "b", "c"] 2).getD i []).length = 2)) :=
  ⟨by decide, c9_chunk_list_partition ["a", "b", "c"] 2 (by decide)⟩

/-- C10: when the crossref fetch yields a record without a subjects key (or
with an empty subjects list), the canonical row's subjects field is the
empty string, while an absent crossref record leaves it null; with every
other field agreeing, the two canonical rows differ, their hashed
pre-images differ (the subjects slot stringifies to the empty string versus
the marker string produced for null), and at a representative input the two
fingerprints differ. -/
theorem c10_subjects_empty_vs_absent (issn : String) (oa : Option OpenAlexRec)
    (d : String) (c : CrossrefRec)
    (ht : c.title = none) (hp : c.publisher = none) (hd : c.doiPref = none)
    (hs : c.subjects = none ∨ c.subjects = some []) :
    (buildRow issn (some c) oa d).subjects = some "" ∧
    (buildRow issn none oa d).subjects = none ∧
    buildRow issn (some c) oa d ≠ buildRow issn none oa d ∧
    hashInput (rowValues (buildRow issn (some c) oa d)) ≠
      hashInput (rowValues (buildRow issn none oa d)) ∧
    generate_hash (rowValues (buildRow "0001-0001"
        (some ⟨none, none, none, none⟩) none "2024-01-01")) ≠
      generate_hash (rowValues (buildRow "0001-0001" none none "2024-01-01")) := by
  have hsub' : c.subjects.getD [] = [] := by
    rcases hs with h1 | h1 <;> simp [h1]
  have hsub : (buildRow issn (some c) oa d).subjects = some "" := by
    simp [buildRow, hsub', pyJoin]
  refine ⟨hsub, rfl, ?_, ?_, ?_⟩
  · intro heq
    have hcongr := congrArg CanonicalRow.subjects heq
    rw [hsub] at hcongr
    simp [buildRow] at hcongr
  · have hrv1 : rowValues (buildRow issn (some c) oa d) =
        [PyVal.pstr issn, PyVal.pnone, PyVal.pnone] ++ PyVal.pstr "" ::
          [optS (oa.bind (fun r => r.country_code)),
           optB (oa.bind (fun r => r.is_oa)),
           PyVal.pnone, PyVal.pstr "crossref+openalex", PyVal.pdate d] := by
      simp [rowValues, buildRow, ht, hp, hd, hsub', optS, pyJoin]
    have hrv2 : rowValues (buildRow issn none oa d) =
        [PyVal.pstr issn, PyVal.pnone, PyVal.pnone] ++ PyVal.pnone ::
          [optS (oa.bind (fun r => r.country_code)),
           optB (oa.bind (fun r => r.is_oa)),
           PyVal.pnone, PyVal.pstr "crossref+openalex", PyVal.pdate d] := by
      simp [rowValues, buildRow, optS]
    rw [hrv1, hrv2]
    exact hashInput_slot_ne _ _ _ _ (by decide)
  · decide

theorem c10_witness :
    ((⟨none, none, none, none⟩ : CrossrefRec).title = none) ∧
    (buildRow "0001-0001" (some ⟨none, none, none, none⟩) none
      "2024-01-01").subjects = some "" :=
  ⟨rfl, (c10_subjects_empty_vs_absent "0001-0001" none "2024-01-01"
    ⟨none, none, none, none⟩ rfl rfl rfl (Or.inl rfl)).1⟩
